import Mathlib

/-!
Verification of the minimind novel-dataset cleaning pipeline.

Shallow embedding of the Python sources `novel_dataset_clean.py`,
`novel_dataset_cleanV2.py`, `novel_dataset_cleanV3.py` and
`novel_dataset_cleanSft.py`.  Strings are modelled as `List Char`
(Python `str` indexing/`len` work on code points, matching `List Char`
length and slicing).
-/

namespace Minimind

/-! ## Numeral Converter (`_chinese_to_number`, identical in V2 and Sft) -/

/-- The `num_map` dictionary of `_chinese_to_number`: value of each recognized
numeral glyph, `none` for any other character (skipped by the loop).
Comparison is by code point to keep kernel evaluation cheap. -/
def numMap (c : Char) : Option Nat :=
  let n := c.toNat
  if n = 38646 then some 0 -- '零'
  else if n = 19968 then some 1 -- '一'
  else if n = 20108 then some 2 -- '二'
  else if n = 19977 then some 3 -- '三'
  else if n = 22235 then some 4 -- '四'
  else if n = 20116 then some 5 -- '五'
  else if n = 20845 then some 6 -- '六'
  else if n = 19971 then some 7 -- '七'
  else if n = 20843 then some 8 -- '八'
  else if n = 20061 then some 9 -- '九'
  else if n = 21313 then some 10 -- '十'
  else if n = 30334 then some 100 -- '百'
  else if n = 21315 then some 1000 -- '千'
  else if n = 19975 then some 10000 -- '万'
  else if n = 20159 then some 100000000 -- '亿'
  else none

/-- One iteration of the `for char in chinese_str` loop: state is
`(total, current)`. -/
def c2nStep (st : Nat × Nat) (c : Char) : Nat × Nat :=
  match numMap c with
  | none => st
  | some v =>
    if 10 ≤ v then (st.1 + (if st.2 = 0 then 1 else st.2) * v, 0)
    else (st.1, st.2 * 10 + v)

/-- `_chinese_to_number`: fold the glyphs left to right, finish with
`total += current`. -/
def chineseToNumber (s : List Char) : Nat :=
  let st := s.foldl c2nStep (0, 0)
  st.1 + st.2

/-- Digit glyph for 0–9 (standard Chinese numeral alphabet). -/
def d2c (n : Nat) : Char :=
  if n = 0 then '零'
  else if n = 1 then '一'
  else if n = 2 then '二'
  else if n = 3 then '三'
  else if n = 4 then '四'
  else if n = 5 then '五'
  else if n = 6 then '六'
  else if n = 7 then '七'
  else if n = 8 then '八'
  else '九'

/-- Canonical Chinese numeral writing of `n` for `1 ≤ n ≤ 9999` under the
converter's alphabet: thousands/hundreds/tens parts with the standard single
`零` insertion for internal zero runs, and the bare `十` form for 10–19. -/
def numToChinese (n : Nat) : List Char :=
  let a := n / 1000
  let b := n / 100 % 10
  let c := n / 10 % 10
  let d := n % 10
  let pa := if a = 0 then [] else [d2c a, '千']
  let z1 := if a ≠ 0 ∧ b = 0 ∧ (c ≠ 0 ∨ d ≠ 0) then ['零'] else []
  let pb := if b = 0 then [] else [d2c b, '百']
  let z2 := if b ≠ 0 ∧ c = 0 ∧ d ≠ 0 then ['零'] else []
  let pc := if c = 0 then [] else if c = 1 ∧ a = 0 ∧ b = 0 then ['十'] else [d2c c, '十']
  let pd := if d = 0 then [] else [d2c d]
  pa ++ z1 ++ pb ++ z2 ++ pc ++ pd

/-- Boolean roundtrip check used to decide the 1–9999 correctness claim. -/
def roundtripOk (n : Nat) : Bool :=
  n = 0 || chineseToNumber (numToChinese n) = n

/-- Fueled bisection check of `roundtripOk` on the closed interval `[lo, hi]`;
keeps kernel evaluation depth logarithmic in the interval size. -/
def roundtripIcc (fuel lo hi : Nat) : Bool :=
  match fuel with
  | 0 => false
  | fuel + 1 =>
    if hi ≤ lo then roundtripOk lo
    else
      let mid := (lo + hi) / 2
      roundtripIcc fuel lo mid && roundtripIcc fuel (mid + 1) hi

/-! ## Python string helpers

Python `str` values are modelled as `List Char`; `len`, indexing and slicing
act on code points, which matches `List.length` / `List.take` / `List.drop`. -/

/-- Python `str.isspace` on a single character (the characters stripped by
`str.strip()` with no argument). -/
def isPySpace (c : Char) : Bool :=
  let n := c.toNat
  (9 ≤ n && n ≤ 13) || (28 ≤ n && n ≤ 31) || n = 32 || n = 133 || n = 160 ||
  n = 5760 || (8192 ≤ n && n ≤ 8202) || n = 8232 || n = 8233 || n = 8239 ||
  n = 8287 || n = 12288

/-- Remove trailing characters satisfying `isPySpace`. -/
def pyStripEnd (s : List Char) : List Char :=
  (s.reverse.dropWhile isPySpace).reverse

/-- Python `str.strip()`: drop leading and trailing whitespace. -/
def pyStrip (s : List Char) : List Char :=
  pyStripEnd (s.dropWhile isPySpace)

/-- Python slice `text[a:b]` for `0 ≤ a ≤ b`. -/
def pySub (text : List Char) (a b : Nat) : List Char :=
  (text.drop a).take (b - a)

/-- Python slice `s[:k]` where `k` may be negative (counts from the end). -/
def pySliceTo (s : List Char) (k : Int) : List Char :=
  if 0 ≤ k then s.take k.toNat
  else s.take (s.length - (-k).toNat)

/-! ## Content Normalizer (`_process_content`, novel_dataset_cleanV3.py) -/

/-- Characters matched by the regex class `[\x00-\x1F\x7F]` of
`_process_content` (note this includes the newline `\x0A`). -/
def isCtrl (c : Char) : Bool :=
  c.toNat ≤ 31 || c.toNat = 127

/-- First cleaning step: `re.sub(r'[\x00-\x1F\x7F]+', '', raw_content)`. -/
def removeControl (s : List Char) : List Char :=
  s.filter (fun c => !isCtrl c)

/-- Re-emit a run of `n` newlines, collapsing runs of three or more to two
(the replacement of `re.sub(r'\n{3,}', '\n\n', _)`). -/
def emitNlRun (n : Nat) : List Char :=
  if 3 ≤ n then ['\n', '\n'] else List.replicate n '\n'

/-- Scanner for the blank-line collapse: `n` counts the current newline run. -/
def collapseGo (n : Nat) : List Char → List Char
  | [] => emitNlRun n
  | c :: r => if c = '\n' then collapseGo (n + 1) r else emitNlRun n ++ c :: collapseGo 0 r

/-- Second cleaning step: `re.sub(r'\n{3,}', '\n\n', s)`.  Also the
pre-processing step of `_extract_theme` (V2 and Sft). -/
def collapseBlank (s : List Char) : List Char :=
  collapseGo 0 s

/-- Python `s.split('\n')`. -/
def splitOnNl : List Char → List (List Char)
  | [] => [[]]
  | c :: r =>
    let rs := splitOnNl r
    if c = '\n' then [] :: rs
    else
      match rs with
      | [] => [[c]]
      | l :: ls => (c :: l) :: ls

/-- Python `'\n'.join(lines)`. -/
def joinNl : List (List Char) → List Char
  | [] => []
  | [l] => l
  | l :: l2 :: ls => l ++ '\n' :: joinNl (l2 :: ls)

/-- Python `' '.join(parts)`. -/
def joinSpace : List (List Char) → List Char
  | [] => []
  | [p] => p
  | p :: p2 :: ps => p ++ ' ' :: joinSpace (p2 :: ps)

/-- `_process_content` of `NovelStructurer` (novel_dataset_cleanV3.py):
remove control characters, collapse blank-line runs, strip each line,
then strip the whole result. -/
def processContent (raw : List Char) : List Char :=
  pyStrip (joinNl ((splitOnNl (collapseBlank (removeControl raw))).map pyStrip))

/-! ## Chapter Segmenter, V3 (`_process_single_file`, novel_dataset_cleanV3.py)

Following the spec's decomposition (`segment(text, markers)`), the regex
marker scan is an input: a `MatchC` records one match of `chapter_pattern`
(`(?:^|\n)(第[0-9一二三四五六七八九十百千万零]+[章回][^\n]*)(?:\n|$)`) with its
span `[mstart, mend)` in the text and the captured header `group1`. -/

structure MatchC where
  mstart : Nat
  mend : Nat
  group1 : List Char
  deriving DecidableEq

/-- One V3 output chapter (`chapter_number` / `chapter_title` / `content`). -/
structure ChapterV3 where
  num : Nat
  title : List Char
  content : List Char
  deriving DecidableEq

/-- The pre-first-marker block: kept as chapter number 0 (`前言`) when its
processed length meets `min_chapter_length` (200). -/
def prefaceV3 (text : List Char) (ms : List MatchC) : List ChapterV3 :=
  match ms with
  | [] => []
  | m :: _ =>
    if 0 < m.mstart then
      let preface := processContent (text.take m.mstart)
      if 200 ≤ preface.length then [⟨0, "前言".toList, preface⟩] else []
    else []

/-- End position of the current chapter's span: the next match's start, or
the end of the text for the last match. -/
def nextEndV3 (text : List Char) (rest : List MatchC) : Nat :=
  match rest with
  | [] => text.length
  | m2 :: _ => m2.mstart

/-- The `for i, match in enumerate(chapter_matches)` loop: each surviving
chapter is numbered `len(chapters) + 1` over the accumulated list `acc`
(which may already hold the preface). -/
def chapterLoopV3 (text : List Char) (acc : List ChapterV3) : List MatchC → List ChapterV3
  | [] => acc
  | m :: rest =>
    let pc := processContent (pySub text m.mend (nextEndV3 text rest))
    let acc' := if pc.length < 200 then acc
      else acc ++ [⟨acc.length + 1, pyStrip m.group1, pc⟩]
    chapterLoopV3 text acc' rest

/-- Chapter construction of V3 `_process_single_file`: optional preface,
per-marker loop, and the whole-text fallback chapter (`全文`, number 1)
when nothing survived. -/
def buildChaptersV3 (text : List Char) (ms : List MatchC) : List ChapterV3 :=
  let cs := chapterLoopV3 text (prefaceV3 text ms) ms
  if cs.isEmpty then
    let full := processContent text
    if 200 ≤ full.length then [⟨1, "全文".toList, full⟩] else []
  else cs

/-! ## Chapter Segmenter, V2 and Sft (`_split_chapters`)

A `MatchC2` records one match of the V2/Sft chapter regex
`(?:^|\n)(第[零一二三四五六七八九十百千万]+章)\s*[-—－~～]?\s*([^\n]{1,50})(?=\n|$)`
(the lookahead is not consumed, so `mend` is the end of `group2`). -/

structure MatchC2 where
  mstart : Nat
  mend : Nat
  group1 : List Char
  group2 : List Char
  deriving DecidableEq

/-- One V2/Sft chapter tuple `(chapter_num, title, content)`. -/
structure ChapterV2 where
  num : Nat
  title : List Char
  content : List Char
  deriving DecidableEq

/-- Decimal digits of a number, as written by Python `f"第{chapter_num}章"`. -/
def natToChars (n : Nat) : List Char :=
  (Nat.repr n).toList

/-- Start of the next chapter marker, or the end of the text after the last
marker (`len(text) if i == len(matches)-1 else matches[i+1].start()`). -/
def nextStartV2 (text : List Char) (rest : List MatchC2) : Nat :=
  match rest with
  | [] => text.length
  | m2 :: _ => m2.mstart

/-- The V2 `_split_chapters` loop body, in document order: for match `i`,
content is `text[match.end():next_start].strip()` and the title is
`f"第{chapter_num}章 {match.group(2).strip()}"`. -/
def v2DocChapters (text : List Char) : List MatchC2 → List ChapterV2
  | [] => []
  | m :: rest =>
    let num := chineseToNumber m.group1
    ⟨num, '第' :: natToChars num ++ '章' :: ' ' :: pyStrip m.group2,
      pyStrip (pySub text m.mend (nextStartV2 text rest))⟩ :: v2DocChapters text rest

/-- Comparison used by `sorted(chapters, key=lambda x: x[0])`. -/
def chLeV2 (a b : ChapterV2) : Prop :=
  a.num ≤ b.num

instance : DecidableRel chLeV2 := fun a b => Nat.decLe a.num b.num

instance : IsTotal ChapterV2 chLeV2 := ⟨fun a b => Nat.le_total a.num b.num⟩

instance : IsTrans ChapterV2 chLeV2 := ⟨fun _ _ _ h1 h2 => Nat.le_trans h1 h2⟩

/-- V2 `_split_chapters`: build the chapters in document order then return
`sorted(chapters, key=lambda x: x[0])`.  Python's `sorted` is a stable sort
by the key, modelled by insertion sort on `chLeV2` (stable sorting by a
total preorder determines the output uniquely). -/
def splitChaptersV2 (text : List Char) (ms : List MatchC2) : List ChapterV2 :=
  List.insertionSort chLeV2 (v2DocChapters text ms)

/-- Sft `_split_chapters` loop: same spans, title `f"{g1} {g2.strip()}"`,
and no sort — the document-order list is returned as built. -/
def splitChaptersSft (text : List Char) : List MatchC2 → List ChapterV2
  | [] => []
  | m :: rest =>
    ⟨chineseToNumber m.group1, m.group1 ++ ' ' :: pyStrip m.group2,
      pyStrip (pySub text m.mend (nextStartV2 text rest))⟩ :: splitChaptersSft text rest

/-! ## Summary Extractor (`_extract_summary`, novel_dataset_cleanSft.py) -/

/-- The character class removed by
`re.sub(r'[　【】（）《》“”‘’…]', '', text.strip())`. -/
def sumStripSet : List Char :=
  ['　', '【', '】', '（', '）', '《', '》', '“', '”', '‘', '’', '…']

/-- `clean_text` of `_extract_summary`: strip, then delete the special
punctuation set. -/
def cleanSummary (t : List Char) : List Char :=
  (pyStrip t).filter (fun c => !sumStripSet.contains c)

/-- Sentence-ending punctuation of the pattern `[^。！？…]+[。！？…]?`. -/
def isSentEnd (c : Char) : Bool :=
  c = '。' || c = '！' || c = '？' || c = '…'

/-- Scanner equivalent of `re.findall(r'[^。！？…]+[。！？…]?', s)`: `cur` holds
the reversed current sentence body; a terminator with an empty body cannot
start a match and is skipped. -/
def sentGo (cur : List Char) : List Char → List (List Char)
  | [] => if cur.isEmpty then [] else [cur.reverse]
  | c :: r =>
    if isSentEnd c then
      if cur.isEmpty then sentGo [] r else (cur.reverse ++ [c]) :: sentGo [] r
    else sentGo (c :: cur) r

/-- The `sentences` list of `_extract_summary`. -/
def sentencesOf (s : List Char) : List (List Char) :=
  sentGo [] s

/-- The accumulation loop of `_extract_summary` (Sft): keep whole sentences
while the running length stays within `chapter_summary_length` (100);
`break` on the first sentence that would exceed it. -/
def pickSents (cap tot : Nat) : List (List Char) → List (List Char)
  | [] => []
  | s :: rest =>
    if cap < tot + s.length then []
    else s :: pickSents cap (tot + s.length) rest

/-- The ellipsis marker `'...'`. -/
def ellipsisC : List Char :=
  "...".toList

/-- Sft `_extract_summary`: joined kept sentences, plus the ellipsis marker
when any sentence was left unconsumed. -/
def extractSummarySft (t : List Char) : List Char :=
  let ss := sentencesOf (cleanSummary t)
  let picked := pickSents 100 0 ss
  picked.flatten ++ (if picked.length < ss.length then ellipsisC else [])

/-! ## Theme extraction (`_extract_theme` / `_fallback_theme_extract`, Sft;
identical code in V2) and paragraph splitting (`_split_paragraphs`, Sft) -/

/-- The `_split_paragraphs` loop: accumulate stripped non-blank lines into
`cur`, flush on a blank line, and flush the remaining buffer at the end. -/
def spGo (cur : List (List Char)) : List (List Char) → List (List Char)
  | [] => if cur.isEmpty then [] else [joinSpace cur]
  | l :: ls =>
    let l' := pyStrip l
    if l'.isEmpty then
      if cur.isEmpty then spGo [] ls else joinSpace cur :: spGo [] ls
    else spGo (cur ++ [l']) ls

/-- Sft `_split_paragraphs`. -/
def splitParagraphs (content : List Char) : List (List Char) :=
  spGo [] (splitOnNl content)

/-- The `_fallback_theme_extract` loop: like `spGo`, but it `break`s once 5
paragraphs are collected and never flushes the trailing buffer. -/
def fbGo (cur ps : List (List Char)) : List (List Char) → List (List Char)
  | [] => ps
  | l :: ls =>
    let l' := pyStrip l
    if l'.isEmpty then
      let ps' := if cur.isEmpty then ps else ps ++ [joinSpace cur]
      if 5 ≤ ps'.length then ps' else fbGo [] ps' ls
    else fbGo (cur ++ [l']) ps ls

/-- Specification-side description of the `fbGo` loop: the paragraphs that
get flushed by a blank line (the trailing unflushed buffer is dropped). -/
def completedGo (cur : List (List Char)) : List (List Char) → List (List Char)
  | [] => []
  | l :: ls =>
    let l' := pyStrip l
    if l'.isEmpty then
      if cur.isEmpty then completedGo [] ls else joinSpace cur :: completedGo [] ls
    else completedGo (cur ++ [l']) ls

/-- The blank-line-completed paragraphs of a text. -/
def completedParas (t : List Char) : List (List Char) :=
  completedGo [] (splitOnNl t)

/-- Words of a string, as produced by Python `text.split()` (used by
`textwrap.shorten` to collapse whitespace). -/
def wordsGo (cur : List Char) : List Char → List (List Char)
  | [] => if cur.isEmpty then [] else [cur.reverse]
  | c :: r =>
    if isPySpace c then
      if cur.isEmpty then wordsGo [] r else cur.reverse :: wordsGo [] r
    else wordsGo (c :: cur) r

/-- Python `text.split()` with no argument. -/
def pyWords (s : List Char) : List (List Char) :=
  wordsGo [] s

/-- Word-dropping phase of `textwrap.shorten`: keep the longest word run
whose joined text still leaves room for the placeholder. -/
def shortenFitGo (width : Nat) (acc : List Char) : List (List Char) → List Char
  | [] => acc ++ ellipsisC
  | w :: ws =>
    let acc' := if acc.isEmpty then w else acc ++ ' ' :: w
    if acc'.length + 3 ≤ width then shortenFitGo width acc' ws
    else acc ++ ellipsisC

/-- Model of `textwrap.shorten(text, width, placeholder='...')` (an external
standard-library collaborator): collapse whitespace; if the collapsed text
fits, return it, otherwise drop words from the end and append the
placeholder (just the placeholder when not even the first word fits). -/
def shortenPy (width : Nat) (t : List Char) : List Char :=
  let c := joinSpace (pyWords t)
  if c.length ≤ width then c else shortenFitGo width [] (pyWords t)

/-- `_fallback_theme_extract` (Sft, identical in V2): join the first 5
collected paragraphs and cap at 500 characters. -/
def fallbackThemeExtract (text : List Char) : List Char :=
  shortenPy 500 (joinSpace ((fbGo [] [] (splitOnNl text)).take 5))

/-- `_extract_theme` on the no-primary-match tier: the method first collapses
blank-line runs (`re.sub(r'\n{3,}', '\n\n', text)`), and when the
`内容简介/作品大纲` header pattern finds no match it returns
`_fallback_theme_extract(clean_text)`. -/
def extractThemeNoMatch (text : List Char) : List Char :=
  fallbackThemeExtract (collapseBlank text)

/-! ## Sample Synthesizer length bound (`_build_dialogue_pair`, Sft) -/

/-- Sft `_build_dialogue_pair`, returning the `(prompt, response)` contents
of the two conversation turns.  `max_sequence_length` is 3000; on overflow
the response is rebuilt as `f"<s>{content[:available_len]}...</s>"` with
`available_len = 3000 - len(formatted_prompt) - 10` (possibly negative). -/
def buildDialoguePairSft (prompt content : List Char) : List Char × List Char :=
  let fp := "<s>".toList ++ prompt ++ "</s>".toList
  let fc := "<s>".toList ++ content ++ "</s>".toList
  if 3000 < fp.length + fc.length then
    (fp, "<s>".toList ++
      pySliceTo content ((3000 : Int) - (fp.length : Int) - 10) ++
      ellipsisC ++ "</s>".toList)
  else (fp, fc)

/-! ## Title / author extraction (V3 `_process_single_file`; the same
conditional-expression shape appears in novel_dataset_clean.py).  The regex
search result is an input: `none` when the pattern found no match. -/

/-- A match of `title_pattern` `^《(.+?)》|^【(.+?)】`: group 1 is `none` when
the second alternative matched. -/
structure TMatchV3 where
  g1 : Option (List Char)
  deriving DecidableEq

/-- `meta["title"]`: `match.group(1) if re.search(...) else file_path.stem`. -/
def extractTitleV3 (m : Option TMatchV3) (stem : List Char) : Option (List Char) :=
  match m with
  | none => some stem
  | some t => t.g1

/-- `meta["author"]`: `match.group(1) if re.search(...) else "未知"`. -/
def extractAuthorV3 (m : Option (List Char)) : List Char :=
  match m with
  | none => "未知".toList
  | some g => g

/-! ## File-level failure isolation (`_process_single_file` try/except and
`process_folder`, novel_dataset_clean.py and Sft) -/

/-- The `try/except` wrapper of `_process_single_file`: the per-file pipeline
either returns samples or raises; on an exception the file contributes `[]`. -/
def processSingleFileM {S E : Type} (r : Except E (List S)) : List S :=
  match r with
  | Except.ok s => s
  | Except.error _ => []

/-- `process_folder`: `all_samples.extend(self._process_single_file(p))` over
the file list. -/
def processFolderM {F S E : Type} (pipeline : F → Except E (List S))
    (files : List F) : List S :=
  files.foldl (fun acc f => acc ++ processSingleFileM (pipeline f)) []

/-! ## Concrete inputs used by counterexamples and witnesses -/

/-- A chapter-marker text whose first chapter span is empty: on
`"第一章 A\n第二章 B\n" ++ 200 × 'c'` the V2/Sft chapter regex matches at
spans `[0, 5)` (`group1 = "第一章"`, `group2 = "A"`; the lookahead leaves the
newline unconsumed) and `[5, 11)` (`group1 = "第二章"`, `group2 = "B"`), so
the first chapter's content `text[5:5]` is empty. -/
def exC3Text : List Char :=
  "第一章 A\n第二章 B\n".toList ++ List.replicate 200 'c'

/-- The two regex matches on `exC3Text`. -/
def exC3Ms : List MatchC2 :=
  [⟨0, 5, "第一章".toList, "A".toList⟩, ⟨5, 11, "第二章".toList, "B".toList⟩]

/-- A text whose chapter numerals appear out of order (chapter 2 before
chapter 1): matches at `[0, 5)` and `[8, 14)`. -/
def exC4Text : List Char :=
  "第二章 B\nCC\n第一章 A\nDD".toList

/-- The two regex matches on `exC4Text`. -/
def exC4Ms : List MatchC2 :=
  [⟨0, 5, "第二章".toList, "B".toList⟩, ⟨8, 14, "第一章".toList, "A".toList⟩]

/-- A 121-character text whose single sentence terminator sits past the
100-character summary cap. -/
def exC5Text : List Char :=
  List.replicate 120 'a' ++ ['。']

/-- A document of three paragraphs whose last paragraph is not followed by a
blank line (and which contains no theme header markers). -/
def exC7Text : List Char :=
  "A\n\nB\n\nC".toList

/-- A V3 input with a 200-character preface and two 200-character chapters:
the V3 chapter regex (which consumes the trailing newline) matches at spans
`[200, 205)` and `[405, 410)`. -/
def exC10Text : List Char :=
  List.replicate 200 'p' ++ "\n第一章\n".toList ++ List.replicate 200 'x' ++
    "\n第二章\n".toList ++ List.replicate 200 'y'

/-- The two regex matches on `exC10Text`. -/
def exC10Ms : List MatchC :=
  [⟨200, 205, "第一章".toList⟩, ⟨405, 410, "第二章".toList⟩]

/-! # Theorems -/

/-! ## Numeral Converter lemmas -/

theorem roundtripIcc_sound (fuel : Nat) :
    ∀ lo hi n, roundtripIcc fuel lo hi = true → lo ≤ n → n ≤ hi →
      roundtripOk n = true := by
  induction fuel with
  | zero => intro lo hi n h _ _; simp [roundtripIcc] at h
  | succ fuel ih =>
    intro lo hi n h hlo hhi
    rw [roundtripIcc] at h
    by_cases hle : hi ≤ lo
    · rw [if_pos hle] at h
      have : n = lo := by omega
      rwa [this]
    · rw [if_neg hle] at h
      have h2 := (Bool.and_eq_true _ _).mp h
      by_cases hn : n ≤ (lo + hi) / 2
      · exact ih lo ((lo + hi) / 2) n h2.1 hlo hn
      · exact ih ((lo + hi) / 2 + 1) hi n h2.2 (by omega) hhi

set_option maxRecDepth 2000 in
set_option maxHeartbeats 2000000 in
theorem roundtripChunk1 : roundtripIcc 16 1 1000 = true := by decide

set_option maxRecDepth 2000 in
set_option maxHeartbeats 2000000 in
theorem roundtripChunk2 : roundtripIcc 16 1001 2000 = true := by decide

set_option maxRecDepth 2000 in
set_option maxHeartbeats 2000000 in
theorem roundtripChunk3 : roundtripIcc 16 2001 3000 = true := by decide

set_option maxRecDepth 2000 in
set_option maxHeartbeats 2000000 in
theorem roundtripChunk4 : roundtripIcc 16 3001 4000 = true := by decide

set_option maxRecDepth 2000 in
set_option maxHeartbeats 2000000 in
theorem roundtripChunk5 : roundtripIcc 16 4001 5000 = true := by decide

set_option maxRecDepth 2000 in
set_option maxHeartbeats 2000000 in
theorem roundtripChunk6 : roundtripIcc 16 5001 6000 = true := by decide

set_option maxRecDepth 2000 in
set_option maxHeartbeats 2000000 in
theorem roundtripChunk7 : roundtripIcc 16 6001 7000 = true := by decide

set_option maxRecDepth 2000 in
set_option maxHeartbeats 2000000 in
theorem roundtripChunk8 : roundtripIcc 16 7001 8000 = true := by decide

set_option maxRecDepth 2000 in
set_option maxHeartbeats 2000000 in
theorem roundtripChunk9 : roundtripIcc 16 8001 9000 = true := by decide

set_option maxRecDepth 2000 in
set_option maxHeartbeats 2000000 in
theorem roundtripChunk10 : roundtripIcc 16 9001 9999 = true := by decide

theorem roundtripOk_all (n : Nat) (h1 : 1 ≤ n) (h2 : n ≤ 9999) :
    roundtripOk n = true := by
  by_cases a1 : n ≤ 1000
  · exact roundtripIcc_sound 16 1 1000 n roundtripChunk1 h1 a1
  by_cases a2 : n ≤ 2000
  · exact roundtripIcc_sound 16 1001 2000 n roundtripChunk2 (by omega) a2
  by_cases a3 : n ≤ 3000
  · exact roundtripIcc_sound 16 2001 3000 n roundtripChunk3 (by omega) a3
  by_cases a4 : n ≤ 4000
  · exact roundtripIcc_sound 16 3001 4000 n roundtripChunk4 (by omega) a4
  by_cases a5 : n ≤ 5000
  · exact roundtripIcc_sound 16 4001 5000 n roundtripChunk5 (by omega) a5
  by_cases a6 : n ≤ 6000
  · exact roundtripIcc_sound 16 5001 6000 n roundtripChunk6 (by omega) a6
  by_cases a7 : n ≤ 7000
  · exact roundtripIcc_sound 16 6001 7000 n roundtripChunk7 (by omega) a7
  by_cases a8 : n ≤ 8000
  · exact roundtripIcc_sound 16 7001 8000 n roundtripChunk8 (by omega) a8
  by_cases a9 : n ≤ 9000
  · exact roundtripIcc_sound 16 8001 9000 n roundtripChunk9 (by omega) a9
  · exact roundtripIcc_sound 16 9001 9999 n roundtripChunk10 (by omega) h2

theorem foldl_c2nStep_none (s : List Char) :
    ∀ st, (∀ c ∈ s, numMap c = none) → s.foldl c2nStep st = st := by
  induction s with
  | nil => intro st _; rfl
  | cons c r ih =>
    intro st h
    have hc : numMap c = none := h c (List.mem_cons_self c r)
    have step : c2nStep st c = st := by simp [c2nStep, hc]
    simp only [List.foldl_cons, step]
    exact ih st fun x hx => h x (List.mem_cons_of_mem c hx)

theorem foldl_c2nStep_filter (s : List Char) :
    ∀ st, (s.filter fun c => (numMap c).isSome).foldl c2nStep st =
      s.foldl c2nStep st := by
  induction s with
  | nil => intro st; rfl
  | cons c r ih =>
    intro st
    by_cases hc : (numMap c).isSome
    · simp only [List.filter_cons, hc, if_pos, List.foldl_cons]
      exact ih (c2nStep st c)
    · have hn : numMap c = none := Option.not_isSome_iff_eq_none.mp hc
      have step : c2nStep st c = st := by simp [c2nStep, hn]
      simp only [List.filter_cons, hc, List.foldl_cons, step]
      simp only [Bool.false_eq_true, if_false]
      exact ih st

/-- **C1.** The Numeral Converter `_chinese_to_number` is the stated
left-to-right fold: the canonical glyph writing of every integer 1–9999
converts back to that integer; the empty sequence and any fully-unrecognized
sequence yield 0; and unrecognized glyphs are skipped without effect
(converting only the recognized glyphs gives the same value). -/
theorem chinese_numeral_correct :
    (∀ n, 1 ≤ n → n ≤ 9999 → chineseToNumber (numToChinese n) = n) ∧
    chineseToNumber [] = 0 ∧
    (∀ s, (∀ c ∈ s, numMap c = none) → chineseToNumber s = 0) ∧
    (∀ s, chineseToNumber (s.filter fun c => (numMap c).isSome) =
      chineseToNumber s) := by
  refine ⟨?_, rfl, ?_, ?_⟩
  · intro n h1 h2
    have h := roundtripOk_all n h1 h2
    rw [roundtripOk] at h
    rcases Bool.or_eq_true_iff.mp h with h0 | hr
    · exact absurd (of_decide_eq_true h0) (by omega)
    · exact of_decide_eq_true hr
  · intro s h
    rw [chineseToNumber, foldl_c2nStep_none s (0, 0) h]
    rfl
  · intro s
    rw [chineseToNumber, chineseToNumber, foldl_c2nStep_filter s (0, 0)]

/-- Witness for C1: the glyph sequence for twelve (`十二`) converts to 12
(Scenario B of the spec). -/
theorem chinese_numeral_correct_witness :
    (1 ≤ 12 ∧ 12 ≤ 9999) ∧ chineseToNumber (numToChinese 12) = 12 :=
  ⟨by omega, chinese_numeral_correct.1 12 (by omega) (by omega)⟩

end Minimind

namespace Minimind

/-! ## Content Normalizer lemmas (C6) -/

theorem pyStripEnd_eq (s : List Char) :
    pyStripEnd s = List.rdropWhile isPySpace s := rfl

theorem head?_pyStrip (s : List Char) {c : Char}
    (h : (pyStrip s).head? = some c) : isPySpace c = false := by
  have hp : pyStrip s = List.rdropWhile isPySpace (s.dropWhile isPySpace) := rfl
  rcases he : pyStrip s with _ | ⟨a, t⟩
  · rw [he] at h; cases h
  · rw [he] at h
    have hca : c = a := by
      simp only [List.head?_cons, Option.some.injEq] at h
      exact h.symm
    obtain ⟨w, hw⟩ := List.rdropWhile_prefix isPySpace (s.dropWhile isPySpace)
    rw [← hp, he] at hw
    have hd : s.dropWhile isPySpace = a :: (t ++ w) := by
      rw [← hw]; simp
    have hh := List.head?_dropWhile_not isPySpace s
    rw [hd] at hh
    simp only [List.head?_cons] at hh
    rw [hca]
    exact hh

theorem dropWhile_pyStrip (s : List Char) :
    List.dropWhile isPySpace (pyStrip s) = pyStrip s := by
  rcases he : pyStrip s with _ | ⟨a, t⟩
  · rfl
  · have ha : isPySpace a = false := head?_pyStrip s (by rw [he]; rfl)
    rw [List.dropWhile_cons_of_neg (by simp [ha])]

theorem pyStrip_idem (s : List Char) : pyStrip (pyStrip s) = pyStrip s := by
  have h1 : pyStrip (pyStrip s) = pyStripEnd (pyStrip s) := by
    rw [pyStrip, dropWhile_pyStrip]
  rw [h1, pyStripEnd_eq, pyStrip, pyStripEnd_eq, List.rdropWhile_idempotent]

theorem mem_pyStrip {c : Char} {s : List Char} (h : c ∈ pyStrip s) : c ∈ s := by
  rw [pyStrip, pyStripEnd_eq] at h
  have h1 := (List.rdropWhile_prefix isPySpace (s.dropWhile isPySpace)).sublist
  have h2 := List.dropWhile_sublist (l := s) isPySpace
  exact (h1.trans h2).subset h

theorem not_ctrl_mem_removeControl {c : Char} {s : List Char}
    (h : c ∈ removeControl s) : isCtrl c = false := by
  rw [removeControl, List.mem_filter] at h
  simpa using h.2

theorem removeControl_eq_self {s : List Char}
    (h : ∀ c ∈ s, isCtrl c = false) : removeControl s = s := by
  rw [removeControl, List.filter_eq_self]
  intro a ha
  simp [h a ha]

theorem no_nl_removeControl (s : List Char) : '\n' ∉ removeControl s := by
  intro h
  have := not_ctrl_mem_removeControl h
  simp [isCtrl] at this

theorem collapseGo_no_nl {s : List Char} (h : '\n' ∉ s) : collapseGo 0 s = s := by
  induction s with
  | nil => rfl
  | cons c r ih =>
    have hc : ¬c = '\n' := fun he => h (he ▸ List.mem_cons_self c r)
    rw [collapseGo, if_neg hc, ih (fun hm => h (List.mem_cons_of_mem c hm))]
    rfl

theorem splitOnNl_no_nl {s : List Char} (h : '\n' ∉ s) : splitOnNl s = [s] := by
  induction s with
  | nil => rfl
  | cons c r ih =>
    have hc : ¬c = '\n' := fun he => h (he ▸ List.mem_cons_self c r)
    rw [splitOnNl]
    simp only [ih (fun hm => h (List.mem_cons_of_mem c hm)), if_neg hc]

theorem processContent_strip (raw : List Char) :
    processContent raw = pyStrip (removeControl raw) := by
  rw [processContent, collapseBlank, collapseGo_no_nl (no_nl_removeControl raw),
    splitOnNl_no_nl (no_nl_removeControl raw)]
  simp only [List.map_cons, List.map_nil]
  rw [joinNl, pyStrip_idem]

/-- **C6.** The Content Normalizer `_process_content` is idempotent:
normalizing already-normalized text is a no-op. -/
theorem normalize_idempotent (x : List Char) :
    processContent (processContent x) = processContent x := by
  rw [processContent_strip, processContent_strip,
    removeControl_eq_self (fun c hc => not_ctrl_mem_removeControl (mem_pyStrip hc)),
    pyStrip_idem]

end Minimind

namespace Minimind

/-! ## Sample length bound (C2) -/

/-- **C2 counterexample.** With a 2990-character prompt and a 100-character
response, `available_len` is negative, the Python slice `content[:available_len]`
keeps 93 characters, and the truncated pair has combined length 3100 — above
`max_sequence_length = 3000`. -/
theorem sample_length_counterexample :
    3000 <
      (buildDialoguePairSft (List.replicate 2990 'a') (List.replicate 100 'b')).1.length +
      (buildDialoguePairSft (List.replicate 2990 'a') (List.replicate 100 'b')).2.length := by
  have h3 : ("<s>".toList : List Char).length = 3 := rfl
  have h4 : ("</s>".toList : List Char).length = 4 := rfl
  have hel : ellipsisC.length = 3 := rfl
  simp only [buildDialoguePairSft]
  rw [if_pos (by simp only [List.length_append, List.length_replicate, h3, h4]; omega)]
  simp only [pySliceTo]
  rw [if_neg (by simp only [List.length_append, List.length_replicate, h3, h4]; omega)]
  simp only [List.length_append, List.length_replicate, List.length_take, h3, h4, hel]
  omega

theorem pySliceTo_nonneg (s : List Char) (k : Int) (hk : 0 ≤ k) :
    pySliceTo s k = s.take k.toNat := by
  simp only [pySliceTo]
  rw [if_pos hk]

/-- **C2 (amended).** `_build_dialogue_pair` never alters the formatted
prompt, and provided the prompt leaves room for the truncation overhead
(`len(prompt) + 17 ≤ max_sequence_length`), the combined length of the two
turns is at most `max_sequence_length = 3000`; on overflow only the response
tail is cut and the ellipsis marker is appended. -/
theorem sample_length_bound_amended (prompt content : List Char)
    (h : prompt.length + 17 ≤ 3000) :
    (buildDialoguePairSft prompt content).1 =
      "<s>".toList ++ prompt ++ "</s>".toList ∧
    (buildDialoguePairSft prompt content).1.length +
      (buildDialoguePairSft prompt content).2.length ≤ 3000 ∧
    ((buildDialoguePairSft prompt content).2 =
      "<s>".toList ++ content ++ "</s>".toList ∨
     (buildDialoguePairSft prompt content).2 =
      "<s>".toList ++ content.take (2983 - prompt.length) ++ ellipsisC ++
        "</s>".toList) := by
  have h3 : ("<s>".toList : List Char).length = 3 := rfl
  have h4 : ("</s>".toList : List Char).length = 4 := rfl
  have hel : ellipsisC.length = 3 := rfl
  have hfp : ("<s>".toList ++ prompt ++ "</s>".toList).length =
      prompt.length + 7 := by
    simp only [List.length_append, h3, h4]
    omega
  have hfc : ("<s>".toList ++ content ++ "</s>".toList).length =
      content.length + 7 := by
    simp only [List.length_append, h3, h4]
    omega
  simp only [buildDialoguePairSft]
  by_cases hc : 3000 < ("<s>".toList ++ prompt ++ "</s>".toList).length +
      ("<s>".toList ++ content ++ "</s>".toList).length
  · rw [if_pos hc]
    have hslice : pySliceTo content
        ((3000 : Int) - (("<s>".toList ++ prompt ++ "</s>".toList).length : Int) - 10) =
        content.take (2983 - prompt.length) := by
      rw [pySliceTo_nonneg _ _ (by rw [hfp]; omega),
        show ((3000 : Int) - (("<s>".toList ++ prompt ++ "</s>".toList).length : Int)
          - 10).toNat = 2983 - prompt.length by rw [hfp]; omega]
    refine ⟨rfl, ?_, Or.inr (by rw [hslice])⟩
    rw [hslice]
    simp only [List.length_append, hfp, List.length_take, h3, h4, hel]
    omega
  · rw [if_neg hc]
    refine ⟨rfl, ?_, Or.inl rfl⟩
    rw [hfp, hfc]
    rw [hfp, hfc] at hc
    omega

/-- Witness for C2 (amended): a one-character prompt with a 3000-character
response is truncated to a combined length within the 3000 bound. -/
theorem sample_length_bound_amended_witness :
    (['p'].length + 17 ≤ 3000) ∧
    ((buildDialoguePairSft ['p'] (List.replicate 3000 'b')).1 =
      "<s>".toList ++ ['p'] ++ "</s>".toList ∧
    (buildDialoguePairSft ['p'] (List.replicate 3000 'b')).1.length +
      (buildDialoguePairSft ['p'] (List.replicate 3000 'b')).2.length ≤ 3000 ∧
    ((buildDialoguePairSft ['p'] (List.replicate 3000 'b')).2 =
      "<s>".toList ++ List.replicate 3000 'b' ++ "</s>".toList ∨
     (buildDialoguePairSft ['p'] (List.replicate 3000 'b')).2 =
      "<s>".toList ++ (List.replicate 3000 'b').take (2983 - ['p'].length) ++
        ellipsisC ++ "</s>".toList)) :=
  ⟨by decide, sample_length_bound_amended ['p'] (List.replicate 3000 'b') (by decide)⟩

end Minimind

namespace Minimind

/-! ## Segmenter lemmas (C3, C4, C10) -/

theorem prefaceV3_content (text : List Char) (ms : List MatchC) :
    ∀ ch ∈ prefaceV3 text ms, 200 ≤ ch.content.length := by
  intro ch hch
  match ms with
  | [] => cases hch
  | m :: rest =>
    simp only [prefaceV3] at hch
    by_cases h0 : 0 < m.mstart
    · rw [if_pos h0] at hch
      by_cases h200 : 200 ≤ (processContent (text.take m.mstart)).length
      · rw [if_pos h200] at hch
        rw [List.mem_singleton] at hch
        subst hch
        exact h200
      · rw [if_neg h200] at hch; cases hch
    · rw [if_neg h0] at hch; cases hch

theorem prefaceV3_cases (text : List Char) (ms : List MatchC) :
    prefaceV3 text ms = [] ∨
    ∃ c, prefaceV3 text ms = [⟨0, "前言".toList, c⟩] := by
  match ms with
  | [] => exact Or.inl rfl
  | m :: rest =>
    simp only [prefaceV3]
    by_cases h0 : 0 < m.mstart
    · rw [if_pos h0]
      by_cases h200 : 200 ≤ (processContent (text.take m.mstart)).length
      · rw [if_pos h200]
        exact Or.inr ⟨_, rfl⟩
      · rw [if_neg h200]; exact Or.inl rfl
    · rw [if_neg h0]; exact Or.inl rfl

theorem chapterLoopV3_content (text : List Char) :
    ∀ (ms : List MatchC) (acc : List ChapterV3),
      (∀ ch ∈ acc, 200 ≤ ch.content.length) →
      ∀ ch ∈ chapterLoopV3 text acc ms, 200 ≤ ch.content.length := by
  intro ms
  induction ms with
  | nil => intro acc hacc ch hch; exact hacc ch hch
  | cons m rest ih =>
    intro acc hacc ch hch
    simp only [chapterLoopV3] at hch
    by_cases h200 : (processContent (pySub text m.mend (nextEndV3 text rest))).length < 200
    · rw [if_pos h200] at hch
      exact ih acc hacc ch hch
    · rw [if_neg h200] at hch
      refine ih _ ?_ ch hch
      intro c hc
      rcases List.mem_append.mp hc with hc | hc
      · exact hacc c hc
      · rw [List.mem_singleton] at hc
        subst hc
        simp only []
        omega

theorem chapterLoopV3_length_ge (text : List Char) :
    ∀ (ms : List MatchC) (acc : List ChapterV3),
      acc.length ≤ (chapterLoopV3 text acc ms).length := by
  intro ms
  induction ms with
  | nil => intro acc; exact Nat.le_refl _
  | cons m rest ih =>
    intro acc
    simp only [chapterLoopV3]
    by_cases h200 : (processContent (pySub text m.mend (nextEndV3 text rest))).length < 200
    · rw [if_pos h200]; exact ih acc
    · rw [if_neg h200]
      have h1 := ih (acc ++ [⟨acc.length + 1, pyStrip m.group1,
        processContent (pySub text m.mend (nextEndV3 text rest))⟩])
      simp only [List.length_append, List.length_cons, List.length_nil] at h1
      omega

theorem chapterLoopV3_nums (text : List Char) :
    ∀ (ms : List MatchC) (acc : List ChapterV3),
      (chapterLoopV3 text acc ms).map (fun c => c.num) =
        acc.map (fun c => c.num) ++
          List.range' (acc.length + 1)
            ((chapterLoopV3 text acc ms).length - acc.length) := by
  intro ms
  induction ms with
  | nil =>
    intro acc
    simp [chapterLoopV3]
  | cons m rest ih =>
    intro acc
    simp only [chapterLoopV3]
    by_cases h200 : (processContent (pySub text m.mend (nextEndV3 text rest))).length < 200
    · rw [if_pos h200]; exact ih acc
    · rw [if_neg h200]
      have hlen := chapterLoopV3_length_ge text rest
        (acc ++ [⟨acc.length + 1, pyStrip m.group1,
          processContent (pySub text m.mend (nextEndV3 text rest))⟩])
      rw [ih]
      simp only [List.map_append, List.map_cons, List.map_nil, List.length_append,
        List.length_cons, List.length_nil, List.append_assoc]
      congr 1
      simp only [List.cons_append, List.nil_append]
      rw [show (chapterLoopV3 text (acc ++ [⟨acc.length + 1, pyStrip m.group1,
          processContent (pySub text m.mend (nextEndV3 text rest))⟩]) rest).length -
          acc.length =
          ((chapterLoopV3 text (acc ++ [⟨acc.length + 1, pyStrip m.group1,
          processContent (pySub text m.mend (nextEndV3 text rest))⟩]) rest).length -
          (acc.length + 1)) + 1 by
        simp only [List.length_append, List.length_cons, List.length_nil] at hlen
        omega]
      rw [List.range'_succ]

end Minimind

namespace Minimind

set_option maxRecDepth 20000 in
/-- **C3 counterexample.** On a text with two adjacent chapter headers, the
V2 `_split_chapters` (cited by the claim) emits a chapter whose content is
empty — far below `min_content_length = 200` — because it applies no
minimum-length filter at all. -/
theorem chapter_min_length_counterexample :
    (splitChaptersV2 exC3Text exC3Ms).map (fun ch => ch.content.length) = [0, 200] ∧
    ¬ (∀ ch ∈ splitChaptersV2 exC3Text exC3Ms,
        200 ≤ ch.content.length ∧ ch.content ≠ []) := by
  constructor
  · decide
  · decide

/-- **C3 (amended).** In the V3 structurer `_process_single_file`, every
chapter of the output (preface, marker chapters, and the whole-text fallback)
has processed content length at least `min_chapter_length = 200`; in
particular no empty chapter appears.  (The V2/Sft `_split_chapters` performs
no such filtering, see the counterexample.) -/
theorem chapter_min_length_v3 (text : List Char) (ms : List MatchC)
    (ch : ChapterV3) (hch : ch ∈ buildChaptersV3 text ms) :
    200 ≤ ch.content.length ∧ ch.content ≠ [] := by
  have hlen : 200 ≤ ch.content.length := by
    simp only [buildChaptersV3] at hch
    by_cases hempty : (chapterLoopV3 text (prefaceV3 text ms) ms).isEmpty
    · rw [if_pos hempty] at hch
      by_cases h200 : 200 ≤ (processContent text).length
      · rw [if_pos h200] at hch
        rw [List.mem_singleton] at hch
        subst hch
        exact h200
      · rw [if_neg h200] at hch; cases hch
    · rw [if_neg hempty] at hch
      exact chapterLoopV3_content text ms (prefaceV3 text ms)
        (prefaceV3_content text ms) ch hch
  refine ⟨hlen, ?_⟩
  intro hnil
  rw [hnil] at hlen
  simp at hlen

set_option maxRecDepth 20000 in
/-- Witness for C3 (amended): the preface chapter of the concrete V3 input
is in the output and satisfies the bound. -/
theorem chapter_min_length_v3_witness :
    ((⟨0, "前言".toList, List.replicate 200 'p'⟩ : ChapterV3) ∈
      buildChaptersV3 exC10Text exC10Ms) ∧
    (200 ≤ (List.replicate 200 'p' : List Char).length ∧
      (List.replicate 200 'p' : List Char) ≠ []) :=
  ⟨by decide, chapter_min_length_v3 exC10Text exC10Ms
    ⟨0, "前言".toList, List.replicate 200 'p'⟩ (by decide)⟩

/-- **C4 counterexample.** On a text whose chapter numerals appear as 2 then
1, the V2 `_split_chapters` does not return document order: it sorts, so the
claim's required behavior (document order on out-of-sequence numbering) does
not hold on the code. -/
theorem chapter_order_counterexample :
    (v2DocChapters exC4Text exC4Ms).map (fun c => c.num) = [2, 1] ∧
    (splitChaptersV2 exC4Text exC4Ms).map (fun c => c.num) = [1, 2] ∧
    splitChaptersV2 exC4Text exC4Ms ≠ v2DocChapters exC4Text exC4Ms := by
  refine ⟨by decide, by decide, by decide⟩

/-- **C4 (amended).** The V2 `_split_chapters` always returns the chapters
stably sorted by resolved number (so when the document-order numbers are
already monotonically non-decreasing the result coincides with document
order), while the Sft `_split_chapters` always returns document order (one
chapter per marker, in marker order, numbered by the numeral converter);
neither variant switches policy based on whether the numbers are in
sequence. -/
theorem chapter_order_amended :
    (∀ t ms, List.Sorted (· ≤ ·) ((splitChaptersV2 t ms).map (fun c => c.num))) ∧
    (∀ t ms, List.Sorted (· ≤ ·) ((v2DocChapters t ms).map (fun c => c.num)) →
      splitChaptersV2 t ms = v2DocChapters t ms) ∧
    (∀ t ms, (splitChaptersSft t ms).map (fun c => c.num) =
      ms.map (fun m => chineseToNumber m.group1)) := by
  refine ⟨?_, ?_, ?_⟩
  · intro t ms
    have h := List.sorted_insertionSort chLeV2 (v2DocChapters t ms)
    rw [List.Sorted, List.pairwise_map]
    exact h.imp (fun hab => hab)
  · intro t ms h
    rw [List.Sorted, List.pairwise_map] at h
    exact List.Sorted.insertionSort_eq (h.imp (fun hab => hab))
  · intro t ms
    induction ms with
    | nil => rfl
    | cons m rest ih =>
      simp only [splitChaptersSft, List.map_cons]
      rw [ih]

set_option maxRecDepth 20000 in
/-- Witness for C4 (amended): on the two-chapter input with numbers 1,2 in
document order, the sorted result equals the document-order list. -/
theorem chapter_order_amended_witness :
    List.Sorted (· ≤ ·) ((v2DocChapters exC3Text exC3Ms).map (fun c => c.num)) ∧
    splitChaptersV2 exC3Text exC3Ms = v2DocChapters exC3Text exC3Ms :=
  ⟨by decide, chapter_order_amended.2.1 exC3Text exC3Ms (by decide)⟩

set_option maxRecDepth 20000 in
/-- **C10 counterexample.** With a preface present, V3 numbers the marker
chapters `len(chapters) + 1` counting the preface, so the output numbering is
`[0, 2, 3]` — number 1 is skipped, contradicting contiguous `1..n` numbering
after the preface. -/
theorem chapter_numbering_counterexample :
    (buildChaptersV3 exC10Text exC10Ms).map (fun c => c.num) = [0, 2, 3] ∧
    (buildChaptersV3 exC10Text exC10Ms).map (fun c => c.num) ≠ [0, 1, 2] := by
  refine ⟨by decide, by decide⟩

/-- **C10 (amended).** V3 chapter numbers are positional: one plus the count
of previously kept chapters including the optional preface.  Without a
preface the surviving chapters are numbered contiguously `1..n` in document
order; with a preface (chapter 0) they are numbered `2..n+1` (number 1 is
skipped).  A file with no chapter markers and enough content yields exactly
one chapter numbered 1 (`全文`). -/
theorem chapter_numbering_amended :
    (∀ text ms, (buildChaptersV3 text ms).map (fun c => c.num) =
      (if prefaceV3 text ms = [] then
        List.range' 1 (buildChaptersV3 text ms).length
       else 0 :: List.range' 2 ((buildChaptersV3 text ms).length - 1))) ∧
    (∀ text, 200 ≤ (processContent text).length →
      buildChaptersV3 text [] = [⟨1, "全文".toList, processContent text⟩]) := by
  constructor
  · intro text ms
    simp only [buildChaptersV3]
    by_cases hempty : (chapterLoopV3 text (prefaceV3 text ms) ms).isEmpty
    · have hpre : prefaceV3 text ms = [] := by
        have hg := chapterLoopV3_length_ge text ms (prefaceV3 text ms)
        rw [List.isEmpty_iff] at hempty
        rw [hempty] at hg
        simp at hg
        exact hg
      rw [if_pos hempty, if_pos hpre]
      by_cases h200 : 200 ≤ (processContent text).length
      · rw [if_pos h200]; rfl
      · rw [if_neg h200]; rfl
    · rw [if_neg hempty]
      have hnums := chapterLoopV3_nums text ms (prefaceV3 text ms)
      rcases prefaceV3_cases text ms with hpre | ⟨c, hpre⟩
      · rw [if_pos hpre, hpre]
        rw [hpre] at hnums
        simpa using hnums
      · rw [if_neg (by rw [hpre]; intro h; cases h), hpre]
        rw [hpre] at hnums
        simp only [List.map_cons, List.map_nil, List.length_cons, List.length_nil,
          List.nil_append] at hnums
        rw [hnums]
        simp
  · intro text h200
    simp only [buildChaptersV3, prefaceV3, chapterLoopV3, List.isEmpty_nil]
    rw [if_pos trivial, if_pos h200]

set_option maxRecDepth 20000 in
/-- Witness for C10 (amended): a marker-free 200-character text yields the
single `全文` chapter numbered 1. -/
theorem chapter_numbering_amended_witness :
    (200 ≤ (processContent (List.replicate 200 'q')).length) ∧
    buildChaptersV3 (List.replicate 200 'q') [] =
      [⟨1, "全文".toList, processContent (List.replicate 200 'q')⟩] :=
  ⟨by decide, chapter_numbering_amended.2 (List.replicate 200 'q') (by decide)⟩

end Minimind

namespace Minimind

/-! ## Summary Extractor lemmas (C5) -/

theorem pickSents_take (cap : Nat) :
    ∀ (ss : List (List Char)) (tot : Nat),
      pickSents cap tot ss = ss.take (pickSents cap tot ss).length := by
  intro ss
  induction ss with
  | nil => intro tot; rfl
  | cons s rest ih =>
    intro tot
    simp only [pickSents]
    by_cases hb : cap < tot + s.length
    · rw [if_pos hb]; rfl
    · rw [if_neg hb]
      simp only [List.length_cons, List.take_succ_cons]
      rw [← ih (tot + s.length)]

theorem pickSents_length_le (cap : Nat) :
    ∀ (ss : List (List Char)) (tot : Nat),
      (pickSents cap tot ss).length ≤ ss.length := by
  intro ss
  induction ss with
  | nil => intro tot; exact Nat.le_refl _
  | cons s rest ih =>
    intro tot
    simp only [pickSents]
    by_cases hb : cap < tot + s.length
    · rw [if_pos hb]; simp
    · rw [if_neg hb]
      simp only [List.length_cons]
      exact Nat.succ_le_succ (ih (tot + s.length))

theorem pickSents_sum (cap : Nat) :
    ∀ (ss : List (List Char)) (tot : Nat),
      pickSents cap tot ss = [] ∨
        tot + ((pickSents cap tot ss).flatten).length ≤ cap := by
  intro ss
  induction ss with
  | nil => intro tot; exact Or.inl rfl
  | cons s rest ih =>
    intro tot
    simp only [pickSents]
    by_cases hb : cap < tot + s.length
    · rw [if_pos hb]; exact Or.inl rfl
    · rw [if_neg hb]
      refine Or.inr ?_
      rcases ih (tot + s.length) with hnil | hle
      · rw [hnil]
        simp only [List.flatten_cons, List.flatten_nil, List.append_nil]
        omega
      · simp only [List.flatten_cons, List.length_append]
        omega

theorem sentGo_dropLast_end :
    ∀ (x : List Char) (cur : List Char),
      ∀ s2 ∈ (sentGo cur x).dropLast,
        ∃ c, s2.getLast? = some c ∧ isSentEnd c = true := by
  intro x
  induction x with
  | nil =>
    intro cur s2 h
    simp only [sentGo] at h
    by_cases hc : cur.isEmpty
    · rw [if_pos hc] at h; cases h
    · rw [if_neg hc] at h; cases h
  | cons c r ih =>
    intro cur s2 h
    simp only [sentGo] at h
    by_cases hend : isSentEnd c
    · rw [if_pos hend] at h
      by_cases hc : cur.isEmpty
      · rw [if_pos hc] at h
        exact ih [] s2 h
      · rw [if_neg hc] at h
        rcases he : sentGo [] r with _ | ⟨hd, tl⟩
        · rw [he] at h; cases h
        · rw [he, List.dropLast_cons₂] at h
          rcases List.mem_cons.mp h with h | h
          · subst h
            exact ⟨c, List.getLast?_concat _, hend⟩
          · rw [← he] at h
            exact ih [] s2 h
    · rw [if_neg hend] at h
      exact ih (c :: cur) s2 h

set_option maxRecDepth 20000 in
/-- **C5 counterexample.** On 120 letters followed by `。`, no sentence ends
within the 100-character cap, and the Sft `_extract_summary` returns just
the ellipsis marker — not the input truncated at the cap boundary. -/
theorem summary_counterexample :
    ((exC5Text.take 100).all fun c => !isSentEnd c) = true ∧
    extractSummarySft exC5Text = ellipsisC ∧
    extractSummarySft exC5Text ≠ exC5Text.take 100 ++ ellipsisC := by
  refine ⟨by decide, by decide, by decide⟩

/-- **C5 (amended).** The Sft `_extract_summary` never splits inside a
sentence of its decomposition: the output is the concatenation of a prefix of
the sentence list (total length at most the 100-character cap) followed by
the ellipsis marker exactly when sentences were dropped; every sentence of
the decomposition except possibly the last ends in a terminator.  When even
the first sentence exceeds the cap the output is just the ellipsis marker
(not a cap-boundary truncation). -/
theorem summary_sentences_amended (t : List Char) :
    (∃ k, k ≤ (sentencesOf (cleanSummary t)).length ∧
      extractSummarySft t =
        ((sentencesOf (cleanSummary t)).take k).flatten ++
          (if k < (sentencesOf (cleanSummary t)).length then ellipsisC else []) ∧
      ((sentencesOf (cleanSummary t)).take k).flatten.length ≤ 100) ∧
    (∀ s2 ∈ (sentencesOf (cleanSummary t)).dropLast,
      ∃ c, s2.getLast? = some c ∧ isSentEnd c = true) ∧
    (∀ s0 rest, sentencesOf (cleanSummary t) = s0 :: rest → 100 < s0.length →
      extractSummarySft t = ellipsisC) := by
  refine ⟨?_, fun s2 h => sentGo_dropLast_end (cleanSummary t) [] s2 h, ?_⟩
  · refine ⟨(pickSents 100 0 (sentencesOf (cleanSummary t))).length,
      pickSents_length_le 100 _ 0, ?_, ?_⟩
    · simp only [extractSummarySft]
      rw [← pickSents_take]
    · rw [← pickSents_take]
      rcases pickSents_sum 100 (sentencesOf (cleanSummary t)) 0 with hnil | hle
      · rw [hnil]; simp
      · omega
  · intro s0 rest heq h100
    simp only [extractSummarySft, heq, pickSents]
    rw [if_pos (by omega)]
    simp

set_option maxRecDepth 20000 in
/-- Witness for C5 (amended): on the concrete over-long single sentence the
extractor returns exactly the ellipsis marker. -/
theorem summary_sentences_amended_witness :
    (sentencesOf (cleanSummary exC5Text) = [List.replicate 120 'a' ++ ['。']] ∧
      100 < (List.replicate 120 'a' ++ ['。'] : List Char).length) ∧
    extractSummarySft exC5Text = ellipsisC :=
  ⟨⟨by decide, by decide⟩,
    (summary_sentences_amended exC5Text).2.2 (List.replicate 120 'a' ++ ['。'])
      [] (by decide) (by decide)⟩

end Minimind

namespace Minimind

/-! ## Theme fallback lemmas (C7) -/

theorem fbGo_take :
    ∀ (ls : List (List Char)) (cur ps : List (List Char)), ps.length < 5 →
      fbGo cur ps ls = (ps ++ completedGo cur ls).take 5 := by
  intro ls
  induction ls with
  | nil =>
    intro cur ps hps
    simp only [fbGo, completedGo, List.append_nil]
    exact (List.take_of_length_le (by omega)).symm
  | cons l rest ih =>
    intro cur ps hps
    simp only [fbGo, completedGo]
    by_cases hl : (pyStrip l).isEmpty
    · rw [if_pos hl, if_pos hl]
      by_cases hcur : cur.isEmpty
      · rw [if_pos hcur, if_pos hcur]
        rw [if_neg (by omega)]
        exact ih [] ps hps
      · rw [if_neg hcur, if_neg hcur]
        by_cases hfive : 5 ≤ (ps ++ [joinSpace cur]).length
        · rw [if_pos hfive]
          have hlen : ps.length = 4 := by
            simp only [List.length_append, List.length_cons, List.length_nil] at hfive
            omega
          rw [List.take_append_eq_append_take]
          rw [List.take_of_length_le (by omega),
            show 5 - ps.length = 1 by omega]
          rfl
        · rw [if_neg hfive]
          rw [ih [] (ps ++ [joinSpace cur]) (by
            simp only [List.length_append, List.length_cons, List.length_nil] at hfive ⊢
            omega)]
          rw [List.append_assoc]
          rfl
    · rw [if_neg hl, if_neg hl]
      exact ih (cur ++ [pyStrip l]) ps hps

theorem spGo_completedGo :
    ∀ (ls : List (List Char)) (cur : List (List Char)),
      ∃ t2, spGo cur ls = completedGo cur ls ++ t2 ∧ t2.length ≤ 1 := by
  intro ls
  induction ls with
  | nil =>
    intro cur
    simp only [spGo, completedGo]
    by_cases hcur : cur.isEmpty
    · rw [if_pos hcur]; exact ⟨[], rfl, by simp⟩
    · rw [if_neg hcur]; exact ⟨[joinSpace cur], rfl, by simp⟩
  | cons l rest ih =>
    intro cur
    simp only [spGo, completedGo]
    by_cases hl : (pyStrip l).isEmpty
    · rw [if_pos hl, if_pos hl]
      by_cases hcur : cur.isEmpty
      · rw [if_pos hcur, if_pos hcur]; exact ih []
      · rw [if_neg hcur, if_neg hcur]
        obtain ⟨t2, ht2, hlen⟩ := ih []
        exact ⟨t2, by rw [ht2, List.cons_append], hlen⟩
    · rw [if_neg hl, if_neg hl]
      exact ih (cur ++ [pyStrip l])

theorem shortenFitGo_length (width : Nat) :
    ∀ (ws : List (List Char)) (acc : List Char), acc.length + 3 ≤ width →
      (shortenFitGo width acc ws).length ≤ width := by
  intro ws
  induction ws with
  | nil =>
    intro acc hacc
    simp only [shortenFitGo, List.length_append]
    have : ellipsisC.length = 3 := rfl
    omega
  | cons w rest ih =>
    intro acc hacc
    simp only [shortenFitGo]
    by_cases hfit : (if acc.isEmpty then w else acc ++ ' ' :: w).length + 3 ≤ width
    · rw [if_pos hfit]
      exact ih _ hfit
    · rw [if_neg hfit]
      simp only [List.length_append]
      have : ellipsisC.length = 3 := rfl
      omega

theorem shortenFitGo_ne_nil (width : Nat) :
    ∀ (ws : List (List Char)) (acc : List Char),
      shortenFitGo width acc ws ≠ [] := by
  intro ws
  induction ws with
  | nil =>
    intro acc
    simp only [shortenFitGo]
    intro h
    have := congrArg List.length h
    simp only [List.length_append, List.length_nil] at this
    have he : ellipsisC.length = 3 := rfl
    omega
  | cons w rest ih =>
    intro acc
    simp only [shortenFitGo]
    by_cases hfit : (if acc.isEmpty then w else acc ++ ' ' :: w).length + 3 ≤ width
    · rw [if_pos hfit]
      exact ih _
    · rw [if_neg hfit]
      intro h
      have := congrArg List.length h
      simp only [List.length_append, List.length_nil] at this
      have he : ellipsisC.length = 3 := rfl
      omega

theorem shortenPy_length (width : Nat) (t : List Char) (hw : 3 ≤ width) :
    (shortenPy width t).length ≤ width := by
  simp only [shortenPy]
  by_cases hfit : (joinSpace (pyWords t)).length ≤ width
  · rw [if_pos hfit]; exact hfit
  · rw [if_neg hfit]
    exact shortenFitGo_length width (pyWords t) [] (by simpa using hw)

theorem wordsGo_ne_nil :
    ∀ (x : List Char) (cur : List Char),
      (cur ≠ [] ∨ ∃ c ∈ x, isPySpace c = false) → wordsGo cur x ≠ [] := by
  intro x
  induction x with
  | nil =>
    intro cur h
    rcases h with h | ⟨c, hc, _⟩
    · simp only [wordsGo]
      rw [if_neg (by simpa using h)]
      simp
    · cases hc
  | cons c r ih =>
    intro cur h
    simp only [wordsGo]
    by_cases hc : isPySpace c
    · rw [if_pos hc]
      by_cases hcur : cur.isEmpty
      · rw [if_pos hcur]
        refine ih [] (Or.inr ?_)
        rcases h with h | ⟨c2, hc2, hc2f⟩
        · exact absurd (List.isEmpty_iff.mp hcur) h
        · rcases List.mem_cons.mp hc2 with he | hm
          · rw [he] at hc2f; rw [hc] at hc2f; cases hc2f
          · exact ⟨c2, hm, hc2f⟩
      · rw [if_neg hcur]
        simp
    · rw [if_neg hc]
      exact ih (c :: cur) (Or.inl (by simp))

theorem wordsGo_elems :
    ∀ (x : List Char) (cur : List Char), ∀ w ∈ wordsGo cur x, w ≠ [] := by
  intro x
  induction x with
  | nil =>
    intro cur w hw
    simp only [wordsGo] at hw
    by_cases hc : cur.isEmpty
    · rw [if_pos hc] at hw; cases hw
    · rw [if_neg hc] at hw
      rw [List.mem_singleton] at hw
      subst hw
      simpa using fun hnil => hc (by rw [hnil]; rfl)
  | cons c r ih =>
    intro cur w hw
    simp only [wordsGo] at hw
    by_cases hc : isPySpace c
    · rw [if_pos hc] at hw
      by_cases hcur : cur.isEmpty
      · rw [if_pos hcur] at hw
        exact ih [] w hw
      · rw [if_neg hcur] at hw
        rcases List.mem_cons.mp hw with hw | hw
        · subst hw
          simpa using fun hnil => hcur (by rw [hnil]; rfl)
        · exact ih [] w hw
    · rw [if_neg hc] at hw
      exact ih (c :: cur) w hw

theorem mem_joinSpace_left {c : Char} {p : List Char} {ps : List (List Char)}
    (h : c ∈ p) : c ∈ joinSpace (p :: ps) := by
  rcases ps with _ | ⟨p2, ps2⟩
  · simpa [joinSpace] using h
  · simp only [joinSpace]
    exact List.mem_append_left _ h

theorem joinSpace_cons_ne_nil {p : List Char} {ps : List (List Char)}
    (h : p ≠ []) : joinSpace (p :: ps) ≠ [] := by
  rcases ps with _ | ⟨p2, ps2⟩
  · simpa [joinSpace] using h
  · simp only [joinSpace]
    intro hcontra
    rcases List.append_eq_nil.mp hcontra with ⟨_, h2⟩
    cases h2

theorem shortenPy_ne_nil (width : Nat) (t : List Char)
    (h : ∀ w ∈ pyWords t, w ≠ []) (h2 : pyWords t ≠ []) :
    shortenPy width t ≠ [] := by
  obtain ⟨w, ws, hw⟩ := List.exists_cons_of_ne_nil h2
  simp only [shortenPy]
  by_cases hfit : (joinSpace (pyWords t)).length ≤ width
  · rw [if_pos hfit, hw]
    exact joinSpace_cons_ne_nil (h w (by rw [hw]; exact List.mem_cons_self _ _))
  · rw [if_neg hfit]; exact shortenFitGo_ne_nil width (pyWords t) []

theorem completedGo_has_ink :
    ∀ (ls : List (List Char)) (cur : List (List Char)),
      (∀ w ∈ cur, ∃ c, w.head? = some c ∧ isPySpace c = false) →
      ∀ p ∈ completedGo cur ls, ∃ c ∈ p, isPySpace c = false := by
  intro ls
  induction ls with
  | nil => intro cur _ p hp; cases hp
  | cons l rest ih =>
    intro cur hcur p hp
    simp only [completedGo] at hp
    by_cases hl : (pyStrip l).isEmpty
    · rw [if_pos hl] at hp
      by_cases hc : cur.isEmpty
      · rw [if_pos hc] at hp
        exact ih [] (by intro w hw; cases hw) p hp
      · rw [if_neg hc] at hp
        rcases List.mem_cons.mp hp with hp | hp
        · subst hp
          rcases hcw : cur with _ | ⟨w1, ws⟩
          · rw [hcw] at hc; simp at hc
          · obtain ⟨c, hhead, hcf⟩ := hcur w1 (by rw [hcw]; exact List.mem_cons_self _ _)
            refine ⟨c, ?_, hcf⟩
            have hcw1 : c ∈ w1 := by
              rcases w1 with _ | ⟨a, t⟩
              · cases hhead
              · simp only [List.head?_cons, Option.some.injEq] at hhead
                rw [← hhead]
                exact List.mem_cons_self _ _
            rcases ws with _ | ⟨w2, ws2⟩
            · simpa [joinSpace] using hcw1
            · simp only [joinSpace]
              exact List.mem_append_left _ hcw1
        · exact ih [] (by intro w hw; cases hw) p hp
    · rw [if_neg hl] at hp
      refine ih (cur ++ [pyStrip l]) ?_ p hp
      intro w hw
      rcases List.mem_append.mp hw with hw | hw
      · exact hcur w hw
      · rw [List.mem_singleton] at hw
        subst hw
        obtain ⟨a, t, hs⟩ := List.exists_cons_of_ne_nil
          (show pyStrip l ≠ [] from fun hnil => hl (by rw [hnil]; rfl))
        refine ⟨a, by rw [hs]; rfl, ?_⟩
        exact head?_pyStrip l (by rw [hs]; rfl)

end Minimind


namespace Minimind

set_option maxRecDepth 20000 in
/-- **C7 counterexample.** On the three-paragraph document `"A\n\nB\n\nC"`
(no theme header markers, so the primary rule finds no match), the fallback
returns `"A B"`: the final paragraph `"C"`, not terminated by a blank line,
is never flushed, so the result is not the join of the first five normalized
paragraphs (`"A B C"`). -/
theorem theme_fallback_counterexample :
    extractThemeNoMatch exC7Text = "A B".toList ∧
    shortenPy 500 (joinSpace ((splitParagraphs (collapseBlank exC7Text)).take 5)) =
      "A B C".toList ∧
    extractThemeNoMatch exC7Text ≠
      shortenPy 500 (joinSpace ((splitParagraphs (collapseBlank exC7Text)).take 5)) := by
  refine ⟨by decide, by decide, by decide⟩

/-- **C7 (amended).** Theme extraction is total and two-tier: with no
primary-rule match it returns the fallback of the blank-line-collapsed text;
the fallback joins the first 5 blank-line-completed paragraphs (a trailing
paragraph not followed by a blank line is dropped — the completed paragraphs
are a prefix of `_split_paragraphs`, which can exceed them by at most the one
unflushed trailing paragraph); the result is capped at 500 characters, and it
is non-empty whenever at least one completed paragraph exists. -/
theorem theme_fallback_amended (t : List Char) :
    extractThemeNoMatch t = fallbackThemeExtract (collapseBlank t) ∧
    fallbackThemeExtract t =
      shortenPy 500 (joinSpace ((completedParas t).take 5)) ∧
    (∃ t2, splitParagraphs t = completedParas t ++ t2 ∧ t2.length ≤ 1) ∧
    (fallbackThemeExtract t).length ≤ 500 ∧
    (completedParas t ≠ [] → fallbackThemeExtract t ≠ []) := by
  have heq : fallbackThemeExtract t =
      shortenPy 500 (joinSpace ((completedParas t).take 5)) := by
    simp only [fallbackThemeExtract, completedParas]
    rw [fbGo_take (splitOnNl t) [] [] (by simp)]
    simp [List.take_take]
  refine ⟨rfl, heq, spGo_completedGo (splitOnNl t) [], ?_, ?_⟩
  · rw [heq]
    exact shortenPy_length 500 _ (by omega)
  · intro hne
    obtain ⟨p, ps, hp⟩ := List.exists_cons_of_ne_nil hne
    obtain ⟨c, hcp, hcf⟩ := completedGo_has_ink (splitOnNl t) []
      (by intro w hw; cases hw) p
      (by rw [show completedGo [] (splitOnNl t) = completedParas t from rfl, hp]
          exact List.mem_cons_self _ _)
    have hcin : c ∈ joinSpace ((completedParas t).take 5) := by
      rw [hp]
      rw [show (5 : Nat) = 4 + 1 from rfl, List.take_succ_cons]
      exact mem_joinSpace_left hcp
    rw [heq]
    refine shortenPy_ne_nil 500 _ (wordsGo_elems _ []) ?_
    exact wordsGo_ne_nil _ [] (Or.inr ⟨c, hcin, hcf⟩)

/-- Witness for C7 (amended): a document with one completed paragraph yields
a non-empty fallback theme. -/
theorem theme_fallback_amended_witness :
    (completedParas ("A\n\nB".toList) ≠ []) ∧
    fallbackThemeExtract ("A\n\nB".toList) ≠ [] :=
  ⟨by decide, (theme_fallback_amended ("A\n\nB".toList)).2.2.2.2 (by decide)⟩

end Minimind

namespace Minimind

/-! ## Title/author fallback (C8) and file-failure isolation (C9) -/

/-- **C8.** Title and author extraction are total with documented fallbacks:
when the title pattern finds no match the title is the file's stem, and when
the author pattern finds no match the author is the `未知` ("unknown")
sentinel; both cases are ordinary conditional expressions, never errors. -/
theorem title_author_fallback (stem : List Char) :
    extractTitleV3 none stem = some stem ∧
    extractAuthorV3 none = "未知".toList :=
  ⟨rfl, rfl⟩

theorem processFolderM_acc {F S E : Type} (pipeline : F → Except E (List S)) :
    ∀ (files : List F) (acc : List S),
      files.foldl (fun a f => a ++ processSingleFileM (pipeline f)) acc =
        acc ++ processFolderM pipeline files := by
  intro files
  induction files with
  | nil => intro acc; simp [processFolderM]
  | cons f fs ih =>
    intro acc
    simp only [processFolderM, List.foldl_cons, List.nil_append]
    rw [ih, ih (processSingleFileM (pipeline f)), List.append_assoc]

/-- **C9.** File-level failure is isolated: `_process_single_file` wraps the
whole per-file pipeline in `try/except` and returns `[]` on any exception,
and `process_folder` just concatenates per-file results — so a failing file
contributes nothing while the surrounding batch is unaffected and no
exception reaches the caller. -/
theorem file_failure_isolated {F S E : Type} (pipeline : F → Except E (List S))
    (files1 files2 : List F) (f : F) (e : E)
    (h : pipeline f = Except.error e) :
    processFolderM pipeline (files1 ++ f :: files2) =
      processFolderM pipeline files1 ++ processFolderM pipeline files2 ∧
    processSingleFileM (pipeline f) = [] := by
  have h2 : processSingleFileM (pipeline f) = [] := by
    rw [h]; rfl
  refine ⟨?_, h2⟩
  simp only [processFolderM, List.foldl_append, List.foldl_cons]
  rw [processFolderM_acc pipeline files1 []]
  simp only [List.nil_append, h2, List.append_nil]
  rw [processFolderM_acc pipeline files2 (processFolderM pipeline files1)]
  rfl

/-- Witness for C9: with a pipeline failing exactly on file 1, the folder
result over `[0, 1, 2]` equals the concatenation of the results for `[0]`
and `[2]`, and file 1 contributes nothing. -/
theorem file_failure_isolated_witness :
    ((fun n => if n = 1 then Except.error () else Except.ok [n]) 1 =
      (Except.error () : Except Unit (List Nat))) ∧
    (processFolderM (fun n => if n = 1 then Except.error () else Except.ok [n])
        ([0] ++ 1 :: [2]) =
      processFolderM (fun n => if n = 1 then Except.error () else Except.ok [n])
        [0] ++
      processFolderM (fun n => if n = 1 then Except.error () else Except.ok [n])
        [2] ∧
    processSingleFileM
      ((fun n => if n = 1 then Except.error () else Except.ok [n]) 1) = []) :=
  ⟨rfl, file_failure_isolated (fun n => if n = 1 then Except.error () else Except.ok [n])
    [0] [2] 1 () rfl⟩

end Minimind
